import Mathlib

/-!
Warband assembly (`warcry_go/warcry_go.go`)

A shallow embedding of the entity model, the collection helpers and the
warband assembler `LoadWarbands`, followed by the properties proved about them.

Modelling conventions.

* Go strings are `String`, Go `int` is `Int`, Go slices are `List`s.  A `nil`
  slice and an empty slice are both `[]`; the code never tells them apart
  (`W.Fighters == nil` only replaces `nil` by the empty slice).
* A Go `map[string]V` that is only ever read with `v, _ := m[k]` (the zero
  value for an absent key) and written with `m[k] = v` is a total function
  `String → V` that starts as the constant zero value.  `LoadWarbands` never
  iterates over its maps and never inspects the presence flag.
* A method with a pointer receiver that returns an `error` is a function that
  returns the receiver after the call together with `Option String`
  (`none` for a `nil` error, `some msg` for `errors.New(msg)`).
* `log.Fatalf` prints its message and terminates the process: `LoadWarbands`
  returns `Except String Warbands`, where `.error msg` carries the formatted
  message and no warband list is produced.
-/

namespace WarcryGo

/-! ## Entity model -/

structure Ability where
  Id : String
  Name : String
  /-- Field `Type` of the source (JSON key `cost`). -/
  Type_ : String
  FactionRunemark : String
  Runemarks : List String
  Description : String
deriving DecidableEq, Repr

structure Weapon where
  Runemark : String
  MinimumRange : Int
  MaximumRange : Int
  Attacks : Int
  Strength : Int
  DamageHit : Int
  DamageCrit : Int
deriving DecidableEq, Repr

structure Fighter where
  Id : String
  Name : String
  FactionRunemark : String
  Runemarks : List String
  BladebornRunemark : String
  GrandAlliance : String
  Movement : Int
  Toughness : Int
  Wounds : Int
  Points : Int
  Weapons : List Weapon
deriving DecidableEq, Repr

abbrev Fighters := List Fighter

abbrev Abilities := List Ability

structure Warband where
  Name : String
  Fighters : List Fighter
  Abilities : List Ability
  BattleTraits : List Ability
deriving DecidableEq, Repr

abbrev Warbands := List Warband

/-- Zero value of the Go struct `Warband`. -/
def Warband.zero : Warband := ⟨"", [], [], []⟩

/-! ## Collection helpers -/

/-- `func (F *Fighters) GetWarband(factionRunemark string) *Fighters`. -/
def Fighters.GetWarband (F : Fighters) (factionRunemark : String) : Fighters :=
  F.foldl
    (fun warband f => if f.FactionRunemark = factionRunemark then warband ++ [f] else warband) []

/-- `func (A *Abilities) GetWarband(factionRunemark string) *Abilities`. -/
def Abilities.GetWarband (A : Abilities) (factionRunemark : String) : Abilities :=
  A.foldl
    (fun warband a => if a.FactionRunemark = factionRunemark then warband ++ [a] else warband) []

/-- `func (F *Fighters) GetIds() []string`. -/
def Fighters.GetIds (F : Fighters) : List String :=
  F.foldl (fun Ids f => Ids ++ [f.Id]) []

/-- `func (A *Abilities) GetIds() []string`. -/
def Abilities.GetIds (A : Abilities) : List String :=
  A.foldl (fun Ids a => Ids ++ [a.Id]) []

/-! ## Insertion into a warband -/

/-- Message of the error returned by `AddFighter`. -/
def errDuplicateFighter : String := "a Fighter with this Id already exists"

/-- Message of the error returned by `AddAbility`. -/
def errDuplicateAbility : String := "an Ability with this Id already exists"

/-- `func (W *Warband) AddFighter(f *Fighter) error`: the warband after the
call and the returned error. -/
def Warband.AddFighter (W : Warband) (f : Fighter) : Warband × Option String :=
  if (Fighters.GetIds W.Fighters).contains f.Id then
    (W, some errDuplicateFighter)
  else
    ({ W with Fighters := W.Fighters ++ [f] }, none)

/-- `func (W *Warband) AddAbility(a *Ability) error`: the warband after the
call and the returned error. -/
def Warband.AddAbility (W : Warband) (a : Ability) : Warband × Option String :=
  if (Abilities.GetIds W.Abilities).contains a.Id then
    (W, some errDuplicateAbility)
  else
    ({ W with Abilities := W.Abilities ++ [a] }, none)

/-! ## The assembler -/

/-- Assignment `m[k] = v` on a Go map seen as a total function. -/
def mapSet {V : Type} (m : String → V) (k : String) (v : V) : String → V :=
  fun k' => if k' = k then v else m k'

/-- Local variables of `LoadWarbands` that live across its loops. -/
structure LoadState where
  wbslice : List String
  wbs : String → Warband
  bladeborn : String → String

/-- State after the declarations at the top of `LoadWarbands`. -/
def LoadState.init : LoadState := ⟨[], fun _ => Warband.zero, fun _ => ""⟩

/-- `if !slices.Contains(wbslice, name) { wbslice = append(wbslice, name) }`. -/
def recordName (wbslice : List String) (name : String) : List String :=
  if wbslice.contains name then wbslice else wbslice ++ [name]

/-- `if f.BladebornRunemark != "" { bladeborn[f.BladebornRunemark] = f.FactionRunemark }`. -/
def registerBladeborn (bladeborn : String → String) (f : Fighter) : String → String :=
  if f.BladebornRunemark ≠ "" then mapSet bladeborn f.BladebornRunemark f.FactionRunemark
  else bladeborn

/-- Body of the first loop of `LoadWarbands` (one fighter). -/
def fighterStep (st : LoadState) (f : Fighter) : Except String LoadState :=
  match (st.wbs f.FactionRunemark).AddFighter f with
  | (_, some err) => .error ("error while adding fighter -- " ++ err)
  | (wb, none) =>
    .ok ⟨recordName st.wbslice f.FactionRunemark,
         mapSet st.wbs f.FactionRunemark wb,
         registerBladeborn st.bladeborn f⟩

/-- The first loop of `LoadWarbands`, `for _, f := range *F`. -/
def fighterLoop : LoadState → List Fighter → Except String LoadState
  | st, [] => .ok st
  | st, f :: fs =>
    match fighterStep st f with
    | .error e => .error e
    | .ok st' => fighterLoop st' fs

/-- The faction an ability is filed under: the first five lines of the body
of the second loop. -/
def targetFaction (bladeborn : String → String) (a : Ability) : String :=
  let faction := a.FactionRunemark
  let bbornfaction := bladeborn a.FactionRunemark
  if bbornfaction ≠ "" then bbornfaction else faction

/-- Body of the second loop of `LoadWarbands` (one ability). -/
def abilityStep (st : LoadState) (a : Ability) : Except String LoadState :=
  let faction := targetFaction st.bladeborn a
  let wb := st.wbs faction
  if a.Type_ = "battle_trait" then
    .ok ⟨recordName st.wbslice faction,
         mapSet st.wbs faction { wb with BattleTraits := wb.BattleTraits ++ [a] },
         st.bladeborn⟩
  else
    match wb.AddAbility a with
    | (_, some err) => .error ("error while adding ability -- " ++ err)
    | (wb', none) =>
      .ok ⟨recordName st.wbslice faction, mapSet st.wbs faction wb', st.bladeborn⟩

/-- The second loop of `LoadWarbands`, `for _, a := range *A`. -/
def abilityLoop : LoadState → List Ability → Except String LoadState
  | st, [] => .ok st
  | st, a :: as =>
    match abilityStep st a with
    | .error e => .error e
    | .ok st' => abilityLoop st' as

/-- The third loop of `LoadWarbands`, `for _, name := range wbslice`. -/
def collectWarbands (st : LoadState) : Warbands :=
  st.wbslice.foldl (fun newW name => newW ++ [{ st.wbs name with Name := name }]) []

/-- `func LoadWarbands(F *Fighters, A *Abilities) *Warbands`. -/
def LoadWarbands (F : Fighters) (A : Abilities) : Except String Warbands :=
  match fighterLoop LoadState.init F with
  | .error e => .error e
  | .ok st =>
    match abilityLoop st A with
    | .error e => .error e
    | .ok st' => .ok (collectWarbands st')

/-- The bladeborn map once every fighter of `F` has been registered. -/
def bladebornAfter (F : Fighters) : String → String :=
  F.foldl registerBladeborn (fun _ => "")

/-- The recorded faction names once every fighter of `F` and then every
ability of `A` has been processed. -/
def seenNames (F : Fighters) (A : Abilities) : List String :=
  (F.map (fun f => f.FactionRunemark) ++ A.map (targetFaction (bladebornAfter F))).foldl
    recordName []

/-- A list of names with every repeated name removed except its first occurrence. -/
def keepFirst : List String → List String
  | [] => []
  | x :: xs => x :: (keepFirst xs).filter (fun y => y ≠ x)

/-- The warband that a successful run builds for the faction name `n`. -/
def assembled (F : Fighters) (A : Abilities) (n : String) : Warband :=
  ⟨n, F.filter (fun f => f.FactionRunemark = n),
    A.filter (fun a => a.Type_ ≠ "battle_trait" ∧ targetFaction (bladebornAfter F) a = n),
    A.filter (fun a => a.Type_ = "battle_trait" ∧ targetFaction (bladebornAfter F) a = n)⟩

/-- Fighter `f` lands in an output warband named `n`. -/
def Fighter.PlacedIn (f : Fighter) (ws : Warbands) (n : String) : Prop :=
  ∃ w ∈ ws, w.Name = n ∧ f ∈ w.Fighters

/-- Ability `a` lands (as an ability or as a battle trait) in an output warband named `n`. -/
def Ability.PlacedIn (a : Ability) (ws : Warbands) (n : String) : Prop :=
  ∃ w ∈ ws, w.Name = n ∧ (a ∈ w.Abilities ∨ a ∈ w.BattleTraits)

/-- Message with which `LoadWarbands` terminates in its first loop. -/
def fatalFighter : String := "error while adding fighter -- " ++ errDuplicateFighter

/-- Message with which `LoadWarbands` terminates in its second loop. -/
def fatalAbility : String := "error while adding ability -- " ++ errDuplicateAbility

/-- Two fighters that cannot both be inserted: same faction-runemark and same identifier. -/
def Fighter.Clash (f g : Fighter) : Prop :=
  f.FactionRunemark = g.FactionRunemark ∧ f.Id = g.Id

/-- Two abilities that cannot both be inserted: neither is a battle trait, and
they have the same target faction and the same identifier. -/
def Ability.Clash (bladeborn : String → String) (a b : Ability) : Prop :=
  a.Type_ ≠ "battle_trait" ∧ b.Type_ ≠ "battle_trait" ∧
    targetFaction bladeborn a = targetFaction bladeborn b ∧ a.Id = b.Id

/-! ## Sample data -/

/-- A fighter with the given identifier, name, faction-runemark and
bladeborn-runemark, every other field at its zero value. -/
def mkFighter (id name faction bladeborn : String) : Fighter :=
  ⟨id, name, faction, [], bladeborn, "", 0, 0, 0, 0, []⟩

/-- An ability with the given identifier, name, type tag and faction-runemark,
every other field at its zero value. -/
def mkAbility (id name type faction : String) : Ability :=
  ⟨id, name, type, faction, [], ""⟩

def exBrute : Fighter := mkFighter "f1" "Brute" "Ironjawz" ""

def exKrusha : Fighter := mkFighter "f2" "Krusha" "Ironjawz" "Krushas"

def exStabba : Fighter := mkFighter "f1" "Stabba" "Gloomspite" ""

def exSmash : Ability := mkAbility "a1" "Smash" "battle_trait" "Ironjawz"

def exStomp : Ability := mkAbility "a2" "Stomp" "action" "Ironjawz"

def exKrush : Ability := mkAbility "a3" "Krush" "double" "Krushas"

def exRush : Ability := mkAbility "a1" "Rush" "battle_trait" "universal"

def exFighters : Fighters := [exBrute, exKrusha, exStabba]

def exAbilities : Abilities := [exSmash, exStomp, exKrush, exRush]

/-- What `LoadWarbands exFighters exAbilities` returns. -/
def exWarbands : Warbands :=
  [⟨"Ironjawz", [exBrute, exKrusha], [exStomp, exKrush], [exSmash]⟩,
   ⟨"Gloomspite", [exStabba], [], []⟩,
   ⟨"universal", [], [], [exRush]⟩]

/-- A fighter without faction-runemark that declares a bladeborn-runemark. -/
def exStray : Fighter := mkFighter "f9" "Stray" "" "Krushas"

/-- A fighter of another faction that declares the bladeborn-runemark of `exKrusha`. -/
def exThorn : Fighter := mkFighter "f3" "Thorn" "Nighthaunt" "Krushas"

/-- An ability filed under `Ironjawz` through the bladeborn map, with the
identifier of `exStomp`. -/
def exBash : Ability := mkAbility "a2" "Bash" "double" "Krushas"

/-- A second battle trait of `Ironjawz` with the identifier of `exSmash`. -/
def exWaaagh : Ability := mkAbility "a1" "Waaagh" "battle_trait" "Ironjawz"

/-- Abilities with a repeated battle-trait identifier inside one faction. -/
def exTraits : Abilities := [exSmash, exWaaagh, exStomp, exKrush, exSmash]

/-! ## The bladeborn map in the words of the specification -/

/-- The last fighter of `F`, in input order, whose bladeborn-runemark is
non-empty and equal to `y`. -/
def lastDeclaring (y : String) (F : Fighters) : Option Fighter :=
  (F.filter (fun f => f.BladebornRunemark ≠ "" ∧ f.BladebornRunemark = y)).getLast?

/-- The faction an ability is filed under, as the specification words it: the
faction-runemark of the last fighter declaring the ability's faction-runemark
as its bladeborn-runemark, when there is one and that faction-runemark is
non-empty; the ability's own faction-runemark in every other case. -/
def filedUnder (F : Fighters) (a : Ability) : String :=
  match lastDeclaring a.FactionRunemark F with
  | some g => if g.FactionRunemark ≠ "" then g.FactionRunemark else a.FactionRunemark
  | none => a.FactionRunemark

/-! ## Helper lemmas: collection helpers and insertion -/

theorem foldl_snoc_eq_map {α β : Type} (g : α → β) (l : List α) (acc : List β) :
    l.foldl (fun r x => r ++ [g x]) acc = acc ++ l.map g := by
  induction l generalizing acc with
  | nil => simp
  | cons x xs ih => simp [ih]

theorem foldl_snoc_if_eq_filter {α : Type} (p : α → Prop) [DecidablePred p] (l : List α)
    (acc : List α) :
    l.foldl (fun r x => if p x then r ++ [x] else r) acc = acc ++ l.filter (fun x => p x) := by
  induction l generalizing acc with
  | nil => simp
  | cons x xs ih =>
    by_cases h : p x
    · simp [ih, h]
    · simp [ih, h]

theorem fighters_GetIds_eq_map (F : Fighters) : Fighters.GetIds F = F.map (fun f => f.Id) := by
  simp [Fighters.GetIds, foldl_snoc_eq_map]

theorem abilities_GetIds_eq_map (A : Abilities) : Abilities.GetIds A = A.map (fun a => a.Id) := by
  simp [Abilities.GetIds, foldl_snoc_eq_map]

theorem AddFighter_of_mem (W : Warband) (f : Fighter)
    (h : f.Id ∈ W.Fighters.map (fun g => g.Id)) :
    W.AddFighter f = (W, some errDuplicateFighter) := by
  have h2 : f.Id ∈ Fighters.GetIds W.Fighters := by
    rw [fighters_GetIds_eq_map]; exact h
  simp [Warband.AddFighter, h2]

theorem AddFighter_of_not_mem (W : Warband) (f : Fighter)
    (h : f.Id ∉ W.Fighters.map (fun g => g.Id)) :
    W.AddFighter f = ({ W with Fighters := W.Fighters ++ [f] }, none) := by
  have h2 : f.Id ∉ Fighters.GetIds W.Fighters := by
    rw [fighters_GetIds_eq_map]; exact h
  simp [Warband.AddFighter, h2]

theorem AddAbility_of_mem (W : Warband) (a : Ability)
    (h : a.Id ∈ W.Abilities.map (fun b => b.Id)) :
    W.AddAbility a = (W, some errDuplicateAbility) := by
  have h2 : a.Id ∈ Abilities.GetIds W.Abilities := by
    rw [abilities_GetIds_eq_map]; exact h
  simp [Warband.AddAbility, h2]

theorem AddAbility_of_not_mem (W : Warband) (a : Ability)
    (h : a.Id ∉ W.Abilities.map (fun b => b.Id)) :
    W.AddAbility a = ({ W with Abilities := W.Abilities ++ [a] }, none) := by
  have h2 : a.Id ∉ Abilities.GetIds W.Abilities := by
    rw [abilities_GetIds_eq_map]; exact h
  simp [Warband.AddAbility, h2]

theorem fighterStep_of_mem (st : LoadState) (f : Fighter)
    (h : f.Id ∈ (st.wbs f.FactionRunemark).Fighters.map (fun g => g.Id)) :
    fighterStep st f = .error fatalFighter := by
  simp [fighterStep, AddFighter_of_mem _ _ h, fatalFighter]

theorem fighterStep_of_not_mem (st : LoadState) (f : Fighter)
    (h : f.Id ∉ (st.wbs f.FactionRunemark).Fighters.map (fun g => g.Id)) :
    fighterStep st f = .ok ⟨recordName st.wbslice f.FactionRunemark,
      mapSet st.wbs f.FactionRunemark
        { st.wbs f.FactionRunemark with
          Fighters := (st.wbs f.FactionRunemark).Fighters ++ [f] },
      registerBladeborn st.bladeborn f⟩ := by
  simp [fighterStep, AddFighter_of_not_mem _ _ h]

theorem abilityStep_trait (st : LoadState) (a : Ability) (h : a.Type_ = "battle_trait") :
    abilityStep st a = .ok ⟨recordName st.wbslice (targetFaction st.bladeborn a),
      mapSet st.wbs (targetFaction st.bladeborn a)
        { st.wbs (targetFaction st.bladeborn a) with
          BattleTraits := (st.wbs (targetFaction st.bladeborn a)).BattleTraits ++ [a] },
      st.bladeborn⟩ := by
  simp [abilityStep, h]

theorem abilityStep_of_mem (st : LoadState) (a : Ability) (h : a.Type_ ≠ "battle_trait")
    (hm : a.Id ∈ (st.wbs (targetFaction st.bladeborn a)).Abilities.map (fun b => b.Id)) :
    abilityStep st a = .error fatalAbility := by
  simp [abilityStep, h, AddAbility_of_mem _ _ hm, fatalAbility]

theorem abilityStep_of_not_mem (st : LoadState) (a : Ability) (h : a.Type_ ≠ "battle_trait")
    (hm : a.Id ∉ (st.wbs (targetFaction st.bladeborn a)).Abilities.map (fun b => b.Id)) :
    abilityStep st a = .ok ⟨recordName st.wbslice (targetFaction st.bladeborn a),
      mapSet st.wbs (targetFaction st.bladeborn a)
        { st.wbs (targetFaction st.bladeborn a) with
          Abilities := (st.wbs (targetFaction st.bladeborn a)).Abilities ++ [a] },
      st.bladeborn⟩ := by
  simp [abilityStep, h, AddAbility_of_not_mem _ _ hm]

/-! ## Helper lemmas: the first loop -/

/-- Everything a successful run of the first loop determines. -/
theorem fighterLoop_ok (F : List Fighter) : ∀ (st st' : LoadState),
    fighterLoop st F = .ok st' →
    st'.wbslice = (F.map (fun f => f.FactionRunemark)).foldl recordName st.wbslice ∧
    st'.bladeborn = F.foldl registerBladeborn st.bladeborn ∧
    (∀ k, st'.wbs k = { st.wbs k with
        Fighters := (st.wbs k).Fighters ++ F.filter (fun f => f.FactionRunemark = k) }) ∧
    (∀ g ∈ F, g.Id ∉ (st.wbs g.FactionRunemark).Fighters.map (fun h => h.Id)) ∧
    F.Pairwise (fun f g => ¬ Fighter.Clash f g) := by
  induction F with
  | nil =>
    intro st st' h
    simp only [fighterLoop, Except.ok.injEq] at h
    subst h
    simp
  | cons f fs ih =>
    intro st st' h
    by_cases hm : f.Id ∈ (st.wbs f.FactionRunemark).Fighters.map (fun g => g.Id)
    · simp [fighterLoop, fighterStep_of_mem _ _ hm] at h
    · simp only [fighterLoop, fighterStep_of_not_mem _ _ hm] at h
      obtain ⟨h1, h2, h3, h4, h5⟩ := ih _ _ h
      refine ⟨?_, ?_, ?_, ?_, ?_⟩
      · simpa using h1
      · simpa using h2
      · intro k
        rw [h3 k]
        by_cases hk : f.FactionRunemark = k
        · subst hk
          simp [mapSet]
        · have hk2 : ¬ k = f.FactionRunemark := fun e => hk e.symm
          simp [mapSet, hk, hk2]
      · intro g hg
        rcases List.mem_cons.mp hg with rfl | hg
        · exact hm
        · have := h4 g hg
          by_cases hk : g.FactionRunemark = f.FactionRunemark
          · simp only [mapSet, hk, if_true] at this
            rw [hk]
            intro hc
            apply this
            simp only [List.map_append, List.mem_append]
            exact Or.inl hc
          · simpa [mapSet, hk] using this
      · refine List.pairwise_cons.mpr ⟨?_, h5⟩
        intro g hg hc
        have := h4 g hg
        obtain ⟨hc1, hc2⟩ := hc
        apply this
        simp [mapSet, ← hc1, ← hc2]

/-- The first loop can only stop with the duplicate-fighter message. -/
theorem fighterLoop_error (F : List Fighter) : ∀ (st : LoadState) (e : String),
    fighterLoop st F = .error e → e = fatalFighter := by
  induction F with
  | nil => intro st e h; simp [fighterLoop] at h
  | cons f fs ih =>
    intro st e h
    by_cases hm : f.Id ∈ (st.wbs f.FactionRunemark).Fighters.map (fun g => g.Id)
    · simp only [fighterLoop, fighterStep_of_mem _ _ hm, Except.error.injEq] at h
      exact h.symm
    · simp only [fighterLoop, fighterStep_of_not_mem _ _ hm] at h
      exact ih _ _ h

/-- The first loop succeeds when no inserted fighter clashes with an earlier one. -/
theorem fighterLoop_succeeds (F : List Fighter) : ∀ (st : LoadState),
    (∀ g ∈ F, g.Id ∉ (st.wbs g.FactionRunemark).Fighters.map (fun h => h.Id)) →
    F.Pairwise (fun f g => ¬ Fighter.Clash f g) →
    ∃ st', fighterLoop st F = .ok st' := by
  induction F with
  | nil => intro st _ _; exact ⟨st, rfl⟩
  | cons f fs ih =>
    intro st h0 hp
    have hm := h0 f (List.mem_cons_self _ _)
    simp only [fighterLoop, fighterStep_of_not_mem _ _ hm]
    obtain ⟨hp1, hp2⟩ := List.pairwise_cons.mp hp
    apply ih _ _ hp2
    intro g hg
    have hg0 := h0 g (List.mem_cons_of_mem _ hg)
    by_cases hk : g.FactionRunemark = f.FactionRunemark
    · have hne : ¬ g.Id = f.Id := fun e => hp1 g hg ⟨hk.symm, e.symm⟩
      rw [hk] at hg0
      simp only [mapSet, hk, if_true, List.map_append, List.mem_append, not_or]
      exact ⟨hg0, by simpa using hne⟩
    · simpa [mapSet, hk] using hg0

/-! ## Helper lemmas: the second loop -/

/-- Everything a successful run of the second loop determines. -/
theorem abilityLoop_ok (A : List Ability) : ∀ (st st' : LoadState),
    abilityLoop st A = .ok st' →
    st'.wbslice = (A.map (targetFaction st.bladeborn)).foldl recordName st.wbslice ∧
    st'.bladeborn = st.bladeborn ∧
    (∀ k, st'.wbs k = { st.wbs k with
        Abilities := (st.wbs k).Abilities ++
          A.filter (fun a => a.Type_ ≠ "battle_trait" ∧ targetFaction st.bladeborn a = k),
        BattleTraits := (st.wbs k).BattleTraits ++
          A.filter (fun a => a.Type_ = "battle_trait" ∧ targetFaction st.bladeborn a = k) }) ∧
    (∀ b ∈ A, b.Type_ ≠ "battle_trait" →
      b.Id ∉ (st.wbs (targetFaction st.bladeborn b)).Abilities.map (fun c => c.Id)) ∧
    A.Pairwise (fun a b => ¬ Ability.Clash st.bladeborn a b) := by
  induction A with
  | nil =>
    intro st st' h
    simp only [abilityLoop, Except.ok.injEq] at h
    subst h
    simp
  | cons a as ih =>
    intro st st' h
    by_cases ht : a.Type_ = "battle_trait"
    · simp only [abilityLoop, abilityStep_trait _ _ ht] at h
      obtain ⟨h1, h2, h3, h4, h5⟩ := ih _ _ h
      simp only at h1 h2 h3 h4 h5
      refine ⟨?_, h2, ?_, ?_, ?_⟩
      · simpa using h1
      · intro k
        rw [h3 k]
        by_cases hk : targetFaction st.bladeborn a = k
        · subst hk
          simp [mapSet, ht]
        · have hk2 : ¬ k = targetFaction st.bladeborn a := fun e => hk e.symm
          simp [mapSet, hk, hk2, ht]
      · intro b hb hbt
        rcases List.mem_cons.mp hb with rfl | hb
        · exact absurd ht hbt
        · have := h4 b hb hbt
          by_cases hk : targetFaction st.bladeborn b = targetFaction st.bladeborn a
          · simpa [mapSet, hk] using this
          · simpa [mapSet, hk] using this
      · refine List.pairwise_cons.mpr ⟨?_, h5⟩
        intro b _ hc
        exact hc.1 ht
    · by_cases hm : a.Id ∈
          (st.wbs (targetFaction st.bladeborn a)).Abilities.map (fun b => b.Id)
      · simp [abilityLoop, abilityStep_of_mem _ _ ht hm] at h
      · simp only [abilityLoop, abilityStep_of_not_mem _ _ ht hm] at h
        obtain ⟨h1, h2, h3, h4, h5⟩ := ih _ _ h
        simp only at h1 h2 h3 h4 h5
        refine ⟨?_, h2, ?_, ?_, ?_⟩
        · simpa using h1
        · intro k
          rw [h3 k]
          by_cases hk : targetFaction st.bladeborn a = k
          · subst hk
            simp [mapSet, ht]
          · have hk2 : ¬ k = targetFaction st.bladeborn a := fun e => hk e.symm
            simp [mapSet, hk, hk2, ht]
        · intro b hb hbt
          rcases List.mem_cons.mp hb with rfl | hb
          · exact hm
          · have := h4 b hb hbt
            by_cases hk : targetFaction st.bladeborn b = targetFaction st.bladeborn a
            · simp only [mapSet, hk, if_true] at this
              rw [hk]
              intro hc
              apply this
              simp only [List.map_append, List.mem_append]
              exact Or.inl hc
            · simpa [mapSet, hk] using this
        · refine List.pairwise_cons.mpr ⟨?_, h5⟩
          intro b hb hc
          obtain ⟨_, hc2, hc3, hc4⟩ := hc
          apply h4 b hb hc2
          simp [mapSet, ← hc3, ← hc4]

/-- The second loop can only stop with the duplicate-ability message. -/
theorem abilityLoop_error (A : List Ability) : ∀ (st : LoadState) (e : String),
    abilityLoop st A = .error e → e = fatalAbility := by
  induction A with
  | nil => intro st e h; simp [abilityLoop] at h
  | cons a as ih =>
    intro st e h
    by_cases ht : a.Type_ = "battle_trait"
    · simp only [abilityLoop, abilityStep_trait _ _ ht] at h
      exact ih _ _ h
    · by_cases hm : a.Id ∈
          (st.wbs (targetFaction st.bladeborn a)).Abilities.map (fun b => b.Id)
      · simp only [abilityLoop, abilityStep_of_mem _ _ ht hm, Except.error.injEq] at h
        exact h.symm
      · simp only [abilityLoop, abilityStep_of_not_mem _ _ ht hm] at h
        exact ih _ _ h

/-- The second loop succeeds when no inserted ability clashes with an earlier one. -/
theorem abilityLoop_succeeds (A : List Ability) : ∀ (st : LoadState),
    (∀ b ∈ A, b.Type_ ≠ "battle_trait" →
      b.Id ∉ (st.wbs (targetFaction st.bladeborn b)).Abilities.map (fun c => c.Id)) →
    A.Pairwise (fun a b => ¬ Ability.Clash st.bladeborn a b) →
    ∃ st', abilityLoop st A = .ok st' := by
  induction A with
  | nil => intro st _ _; exact ⟨st, rfl⟩
  | cons a as ih =>
    intro st h0 hp
    obtain ⟨hp1, hp2⟩ := List.pairwise_cons.mp hp
    by_cases ht : a.Type_ = "battle_trait"
    · simp only [abilityLoop, abilityStep_trait _ _ ht]
      refine ih _ ?_ (by simpa using hp2)
      intro b hb hbt
      have hb0 := h0 b (List.mem_cons_of_mem _ hb) hbt
      by_cases hk : targetFaction st.bladeborn b = targetFaction st.bladeborn a
      · simpa [mapSet, hk] using hb0
      · simpa [mapSet, hk] using hb0
    · have hm := h0 a (List.mem_cons_self _ _) ht
      simp only [abilityLoop, abilityStep_of_not_mem _ _ ht hm]
      refine ih _ ?_ (by simpa using hp2)
      intro b hb hbt
      have hb0 := h0 b (List.mem_cons_of_mem _ hb) hbt
      simp only
      by_cases hk : targetFaction st.bladeborn b = targetFaction st.bladeborn a
      · have hne : ¬ b.Id = a.Id := fun e => hp1 b hb ⟨ht, hbt, hk.symm, e.symm⟩
        rw [hk] at hb0
        simp only [mapSet, hk, if_true, List.map_append, List.mem_append, not_or]
        exact ⟨hb0, by simpa using hne⟩
      · simpa [mapSet, hk] using hb0

/-! ## Helper lemmas: recorded names -/

theorem foldl_recordName (xs : List String) : ∀ (acc : List String),
    xs.foldl recordName acc = acc ++ (keepFirst xs).filter (fun y => y ∉ acc) := by
  induction xs with
  | nil => intro acc; simp [keepFirst]
  | cons x xs ih =>
    intro acc
    by_cases hx : x ∈ acc
    · have hr : recordName acc x = acc := by simp [recordName, hx]
      simp only [List.foldl_cons, hr, ih, keepFirst, List.append_cancel_left_eq]
      rw [List.filter_cons_of_neg (by simpa using hx), List.filter_filter]
      apply List.filter_congr
      intro y _
      by_cases hy : y ∈ acc
      · simp [hy]
      · have : y ≠ x := fun e => hy (e ▸ hx)
        simp [hy, this]
    · have hr : recordName acc x = acc ++ [x] := by simp [recordName, hx]
      simp only [List.foldl_cons, hr, ih, keepFirst]
      rw [List.filter_cons_of_pos (by simpa using hx), List.filter_filter, List.append_assoc]
      congr 1
      simp only [List.singleton_append, List.cons.injEq, true_and]
      apply List.filter_congr
      intro y _
      by_cases hy : y ∈ acc
      · simp [hy]
      · by_cases hyx : y = x
        · simp [hyx]
        · simp [hy, hyx]

theorem foldl_recordName_nil (xs : List String) : xs.foldl recordName [] = keepFirst xs := by
  rw [foldl_recordName]
  simp

theorem mem_keepFirst (xs : List String) (n : String) : n ∈ keepFirst xs ↔ n ∈ xs := by
  induction xs with
  | nil => simp [keepFirst]
  | cons x xs ih =>
    by_cases h : n = x
    · simp [keepFirst, h]
    · simp [keepFirst, h, ih, List.mem_filter]

theorem nodup_keepFirst (xs : List String) : (keepFirst xs).Nodup := by
  induction xs with
  | nil => simp [keepFirst]
  | cons x xs ih =>
    simp only [keepFirst, List.nodup_cons]
    exact ⟨by simp [List.mem_filter], ih.filter _⟩

theorem seenNames_eq (F : Fighters) (A : Abilities) :
    seenNames F A =
      keepFirst (F.map (fun f => f.FactionRunemark) ++
        A.map (targetFaction (bladebornAfter F))) := by
  unfold seenNames
  exact foldl_recordName_nil _

theorem mem_seenNames (F : Fighters) (A : Abilities) (n : String) :
    n ∈ seenNames F A ↔
      (∃ f ∈ F, f.FactionRunemark = n) ∨ (∃ a ∈ A, targetFaction (bladebornAfter F) a = n) := by
  simp [seenNames_eq, mem_keepFirst]

theorem nodup_seenNames (F : Fighters) (A : Abilities) : (seenNames F A).Nodup := by
  rw [seenNames_eq]; exact nodup_keepFirst _

/-! ## Helper lemmas: the whole of `LoadWarbands` -/

theorem collectWarbands_eq_map (st : LoadState) :
    collectWarbands st = st.wbslice.map (fun name => { st.wbs name with Name := name }) := by
  simp [collectWarbands, foldl_snoc_eq_map]

/-- A successful run returns, for each recorded name in order, the warband
assembled for that name; and success excludes clashes. -/
theorem LoadWarbands_ok (F : Fighters) (A : Abilities) (ws : Warbands)
    (h : LoadWarbands F A = .ok ws) :
    ws = (seenNames F A).map (assembled F A) ∧
    F.Pairwise (fun f g => ¬ Fighter.Clash f g) ∧
    A.Pairwise (fun a b => ¬ Ability.Clash (bladebornAfter F) a b) := by
  unfold LoadWarbands at h
  cases hf : fighterLoop LoadState.init F with
  | error e => simp [hf] at h
  | ok st =>
    cases ha : abilityLoop st A with
    | error e => simp [hf, ha] at h
    | ok st' =>
      simp only [hf, ha, Except.ok.injEq] at h
      obtain ⟨f1, f2, f3, _, f5⟩ := fighterLoop_ok F _ _ hf
      obtain ⟨a1, a2, a3, _, a5⟩ := abilityLoop_ok A _ _ ha
      have hbb : st.bladeborn = bladebornAfter F := by
        rw [f2]; rfl
      rw [hbb] at a1 a3 a5
      refine ⟨?_, f5, a5⟩
      rw [← h, collectWarbands_eq_map]
      have hsl : st'.wbslice = seenNames F A := by
        rw [a1, f1]
        simp [seenNames, LoadState.init, List.foldl_append]
      rw [hsl]
      apply List.map_congr_left
      intro n _
      rw [a3 n, f3 n]
      simp [assembled, LoadState.init, Warband.zero]

/-- A run that stops does so with one of the two fatal messages; in the first
loop exactly when two fighters clash. -/
theorem LoadWarbands_error (F : Fighters) (A : Abilities) (e : String)
    (h : LoadWarbands F A = .error e) :
    (e = fatalFighter ∧ ¬ F.Pairwise (fun f g => ¬ Fighter.Clash f g)) ∨
    (e = fatalAbility ∧ F.Pairwise (fun f g => ¬ Fighter.Clash f g) ∧
      ¬ A.Pairwise (fun a b => ¬ Ability.Clash (bladebornAfter F) a b)) := by
  unfold LoadWarbands at h
  cases hf : fighterLoop LoadState.init F with
  | error e1 =>
    simp only [hf, Except.error.injEq] at h
    subst h
    left
    refine ⟨fighterLoop_error _ _ _ hf, ?_⟩
    intro hp
    obtain ⟨st', hst⟩ := fighterLoop_succeeds F LoadState.init
      (by intro g _; simp [LoadState.init, Warband.zero]) hp
    rw [hf] at hst
    cases hst
  | ok st =>
    obtain ⟨_, f2, f3, _, f5⟩ := fighterLoop_ok F _ _ hf
    have hbb : st.bladeborn = bladebornAfter F := by
      rw [f2]; rfl
    cases ha : abilityLoop st A with
    | ok st' => simp [hf, ha] at h
    | error e2 =>
      simp only [hf, ha, Except.error.injEq] at h
      subst h
      right
      refine ⟨abilityLoop_error _ _ _ ha, f5, ?_⟩
      intro hp
      obtain ⟨st', hst⟩ := abilityLoop_succeeds A st
        (by intro b _ _; rw [f3]; simp [LoadState.init, Warband.zero])
        (by rw [hbb]; exact hp)
      rw [ha] at hst
      cases hst

/-! ## Helper lemmas: where fighters and abilities land -/

theorem fighter_placedIn_iff (F : Fighters) (A : Abilities) (ws : Warbands)
    (h : LoadWarbands F A = .ok ws) (f : Fighter) (hf : f ∈ F) (n : String) :
    f.PlacedIn ws n ↔ n = f.FactionRunemark := by
  obtain ⟨hws, _, _⟩ := LoadWarbands_ok F A ws h
  subst hws
  constructor
  · rintro ⟨w, hw, hn, hfw⟩
    obtain ⟨m, _, rfl⟩ := List.mem_map.mp hw
    simp only [assembled, List.mem_filter, decide_eq_true_eq] at hn hfw
    rw [← hn, hfw.2]
  · rintro rfl
    refine ⟨assembled F A f.FactionRunemark, List.mem_map.mpr ⟨_, ?_, rfl⟩, rfl, ?_⟩
    · exact (mem_seenNames F A _).mpr (Or.inl ⟨f, hf, rfl⟩)
    · simp [assembled, hf]

theorem ability_placedIn_iff (F : Fighters) (A : Abilities) (ws : Warbands)
    (h : LoadWarbands F A = .ok ws) (a : Ability) (ha : a ∈ A) (n : String) :
    a.PlacedIn ws n ↔ n = targetFaction (bladebornAfter F) a := by
  obtain ⟨hws, _, _⟩ := LoadWarbands_ok F A ws h
  subst hws
  constructor
  · rintro ⟨w, hw, hn, haw⟩
    obtain ⟨m, _, rfl⟩ := List.mem_map.mp hw
    simp only [assembled, List.mem_filter, decide_eq_true_eq] at hn haw
    rw [← hn]
    rcases haw with haw | haw
    · exact haw.2.2.symm
    · exact haw.2.2.symm
  · rintro rfl
    refine ⟨assembled F A (targetFaction (bladebornAfter F) a),
      List.mem_map.mpr ⟨_, ?_, rfl⟩, rfl, ?_⟩
    · exact (mem_seenNames F A _).mpr (Or.inr ⟨a, ha, rfl⟩)
    · by_cases ht : a.Type_ = "battle_trait"
      · right; simp [assembled, ha, ht]
      · left; simp [assembled, ha, ht]

/-! ## Helper lemmas: the bladeborn map -/

/-- When every fighter that registers the key `y` has faction-runemark `X`,
the map sends `y` to `X` as soon as one of them exists, and is left as it was
at `y` otherwise. -/
theorem foldl_registerBladeborn_agree (y X : String) (F : List Fighter) :
    ∀ (m : String → String),
    (∀ f ∈ F, f.BladebornRunemark ≠ "" → f.BladebornRunemark = y → f.FactionRunemark = X) →
    (F.foldl registerBladeborn m y = X ∧
        ∃ f ∈ F, f.BladebornRunemark ≠ "" ∧ f.BladebornRunemark = y) ∨
      (F.foldl registerBladeborn m y = m y ∧
        ∀ f ∈ F, f.BladebornRunemark ≠ "" → f.BladebornRunemark ≠ y) := by
  induction F with
  | nil => intro m _; right; simp
  | cons f fs ih =>
    intro m hall
    have hfs : ∀ g ∈ fs, g.BladebornRunemark ≠ "" → g.BladebornRunemark = y →
        g.FactionRunemark = X := fun g hg => hall g (List.mem_cons_of_mem _ hg)
    rcases ih (registerBladeborn m f) hfs with ⟨h1, g, hg, hg1, hg2⟩ | ⟨h1, h2⟩
    · left
      exact ⟨by simpa using h1, g, List.mem_cons_of_mem _ hg, hg1, hg2⟩
    · by_cases hb : f.BladebornRunemark ≠ "" ∧ f.BladebornRunemark = y
      · left
        refine ⟨?_, f, List.mem_cons_self _ _, hb.1, hb.2⟩
        simp only [List.foldl_cons, h1]
        have hX := hall f (List.mem_cons_self _ _) hb.1 hb.2
        have hy : ¬ y = "" := hb.2 ▸ hb.1
        simp [registerBladeborn, hb.2, hy, mapSet, hX]
      · right
        refine ⟨?_, ?_⟩
        · simp only [List.foldl_cons, h1]
          by_cases he : f.BladebornRunemark = ""
          · simp [registerBladeborn, he]
          · have hne : ¬ y = f.BladebornRunemark := fun e => hb ⟨he, e.symm⟩
            simp [registerBladeborn, he, mapSet, hne]
        · intro g hg hg1 hg2
          rcases List.mem_cons.mp hg with rfl | hg
          · exact hb ⟨hg1, hg2⟩
          · exact h2 g hg hg1 hg2

theorem bladebornAfter_of_agree (F : Fighters) (y X : String)
    (hall : ∀ f ∈ F, f.BladebornRunemark ≠ "" → f.BladebornRunemark = y →
      f.FactionRunemark = X)
    (hex : ∃ f ∈ F, f.BladebornRunemark ≠ "" ∧ f.BladebornRunemark = y) :
    bladebornAfter F y = X := by
  rcases foldl_registerBladeborn_agree y X F (fun _ => "") hall with ⟨h1, _⟩ | ⟨_, h2⟩
  · exact h1
  · obtain ⟨f, hf, hf1, hf2⟩ := hex
    exact absurd hf2 (h2 f hf hf1)

theorem bladebornAfter_of_none (F : Fighters) (y : String)
    (hnone : ∀ f ∈ F, f.BladebornRunemark ≠ "" → f.BladebornRunemark ≠ y) :
    bladebornAfter F y = "" := by
  rcases foldl_registerBladeborn_agree y "" F (fun _ => "")
      (fun f hf h1 h2 => absurd h2 (hnone f hf h1)) with ⟨h1, _⟩ | ⟨h1, _⟩
  · exact h1
  · exact h1

/-! ## Helper lemmas: clashes at two positions -/

theorem not_pairwise_of_positions {α : Type} (R : α → α → Prop)
    (hsymm : ∀ a b, R a b → R b a) (l : List α) (i j : Nat) (a b : α) (hij : i ≠ j)
    (hi : l[i]? = some a) (hj : l[j]? = some b) (hR : R a b) :
    ¬ l.Pairwise (fun x y => ¬ R x y) := by
  intro hp
  rw [List.pairwise_iff_getElem] at hp
  obtain ⟨hi1, hi2⟩ := List.getElem?_eq_some.mp hi
  obtain ⟨hj1, hj2⟩ := List.getElem?_eq_some.mp hj
  rcases Nat.lt_or_gt_of_ne hij with hlt | hgt
  · apply hp i j hi1 hj1 hlt
    rw [hi2, hj2]; exact hR
  · apply hp j i hj1 hi1 hgt
    rw [hi2, hj2]; exact hsymm _ _ hR

theorem fighterClash_symm {f g : Fighter} (h : Fighter.Clash f g) : Fighter.Clash g f :=
  ⟨h.1.symm, h.2.symm⟩

theorem abilityClash_symm {bb : String → String} {a b : Ability}
    (h : Ability.Clash bb a b) : Ability.Clash bb b a :=
  ⟨h.2.1, h.1, h.2.2.1.symm, h.2.2.2.symm⟩

/-! ## Helper lemmas: grouping by key -/

theorem flatten_filter_perm {α : Type} (key : α → String) (l : List α) :
    ∀ (ks : List String), ks.Nodup →
    (ks.map (fun k => l.filter (fun x => key x = k))).flatten.Perm
      (l.filter (fun x => key x ∈ ks)) := by
  intro ks
  induction ks with
  | nil => intro _; simp
  | cons k ks ih =>
    intro hnd
    obtain ⟨hk, hnd2⟩ := List.nodup_cons.mp hnd
    have h1 := List.filter_append_perm (fun x => decide (key x = k))
      (l.filter (fun x => key x ∈ k :: ks))
    have e1 : (l.filter (fun x => key x ∈ k :: ks)).filter (fun x => decide (key x = k)) =
        l.filter (fun x => key x = k) := by
      rw [List.filter_filter]
      apply List.filter_congr
      intro x _
      by_cases hx : key x = k
      · simp [hx]
      · simp [hx]
    have e2 : (l.filter (fun x => key x ∈ k :: ks)).filter
        (fun x => !(decide (key x = k))) = l.filter (fun x => key x ∈ ks) := by
      rw [List.filter_filter]
      apply List.filter_congr
      intro x _
      by_cases hx : key x = k
      · simp [hx, hk]
      · simp [hx]
    rw [e1, e2] at h1
    simp only [List.map_cons, List.flatten_cons]
    exact ((ih hnd2).append_left _).trans h1

theorem nodup_ids_of_pairwise {α : Type} (key id : α → String) (l : List α)
    (hp : l.Pairwise (fun x y => ¬ (key x = key y ∧ id x = id y))) (k : String) :
    ((l.filter (fun x => key x = k)).map id).Nodup := by
  rw [List.Nodup, List.pairwise_map]
  refine (hp.filter _).imp_of_mem ?_
  intro x y hx hy hxy he
  simp only [List.mem_filter, decide_eq_true_eq] at hx hy
  exact hxy ⟨hx.2.trans hy.2.symm, he⟩

/-! ## Properties of `LoadWarbands` -/

/-- C1 (faction partition): when `LoadWarbands F A` succeeds with `ws`, the
concatenation of the `Fighters` lists of the output warbands is a permutation
of `F`, and every input fighter occurs in exactly one output warband. -/
theorem faction_partition (F : Fighters) (A : Abilities) (ws : Warbands)
    (h : LoadWarbands F A = .ok ws) :
    (ws.map (fun w => w.Fighters)).flatten.Perm F ∧
    ∀ f ∈ F, ws.countP (fun w => decide (f ∈ w.Fighters)) = 1 := by
  obtain ⟨hws, _, _⟩ := LoadWarbands_ok F A ws h
  subst hws
  constructor
  · have hp := flatten_filter_perm (fun f : Fighter => f.FactionRunemark) F
      (seenNames F A) (nodup_seenNames F A)
    have hall : F.filter (fun f => f.FactionRunemark ∈ seenNames F A) = F := by
      apply List.filter_eq_self.mpr
      intro f hf
      simpa using (mem_seenNames F A _).mpr (Or.inl ⟨f, hf, rfl⟩)
    rw [hall] at hp
    simpa [assembled, Function.comp_def] using hp
  · intro f hf
    rw [List.countP_map]
    have hc : List.countP ((fun w => decide (f ∈ w.Fighters)) ∘ assembled F A)
        (seenNames F A) = List.count f.FactionRunemark (seenNames F A) := by
      rw [List.count]
      apply List.countP_congr
      intro n _
      simp only [Function.comp, assembled, List.mem_filter, hf, true_and,
        decide_eq_true_eq, beq_iff_eq]
      exact ⟨fun e => e.symm, fun e => e.symm⟩
    rw [hc]
    exact List.count_eq_one_of_mem (nodup_seenNames F A)
      ((mem_seenNames F A _).mpr (Or.inl ⟨f, hf, rfl⟩))

theorem faction_partition_witness :
    LoadWarbands exFighters exAbilities = .ok exWarbands ∧
    ((exWarbands.map (fun w => w.Fighters)).flatten.Perm exFighters ∧
      ∀ f ∈ exFighters, exWarbands.countP (fun w => decide (f ∈ w.Fighters)) = 1) :=
  ⟨rfl, faction_partition exFighters exAbilities exWarbands rfl⟩

/-- C2 (uniqueness preserved): when the fighter list holds, at two different
positions, fighters with the same faction-runemark and the same identifier,
`LoadWarbands` stops with the duplicate-fighter message, whatever the
abilities are, and so returns no warband list. -/
theorem duplicate_fighter_rejected (F : Fighters) (A : Abilities) (i j : Nat)
    (f g : Fighter) (hij : i ≠ j) (hi : F[i]? = some f) (hj : F[j]? = some g)
    (hfac : f.FactionRunemark = g.FactionRunemark) (hid : f.Id = g.Id) :
    LoadWarbands F A =
      .error ("error while adding fighter -- " ++ "a Fighter with this Id already exists") ∧
    ∀ ws, LoadWarbands F A ≠ .ok ws := by
  have hnp := not_pairwise_of_positions Fighter.Clash (fun _ _ hc => fighterClash_symm hc) F i j f g hij
    hi hj ⟨hfac, hid⟩
  have hno : ∀ ws, LoadWarbands F A ≠ .ok ws := by
    intro ws hok
    exact hnp (LoadWarbands_ok F A ws hok).2.1
  refine ⟨?_, hno⟩
  cases hL : LoadWarbands F A with
  | ok ws => exact absurd hL (hno ws)
  | error e =>
    rcases LoadWarbands_error F A e hL with ⟨he, _⟩ | ⟨_, hp, _⟩
    · rw [he]; rfl
    · exact absurd hp hnp

theorem duplicate_fighter_rejected_witness :
    (0 : Nat) ≠ 2 ∧
    [exBrute, exStabba, mkFighter "f1" "Ardboy" "Ironjawz" ""][0]? = some exBrute ∧
    [exBrute, exStabba, mkFighter "f1" "Ardboy" "Ironjawz" ""][2]? =
      some (mkFighter "f1" "Ardboy" "Ironjawz" "") ∧
    exBrute.FactionRunemark = (mkFighter "f1" "Ardboy" "Ironjawz" "").FactionRunemark ∧
    exBrute.Id = (mkFighter "f1" "Ardboy" "Ironjawz" "").Id ∧
    (LoadWarbands [exBrute, exStabba, mkFighter "f1" "Ardboy" "Ironjawz" ""] exAbilities =
        .error ("error while adding fighter -- " ++ "a Fighter with this Id already exists") ∧
      ∀ ws, LoadWarbands [exBrute, exStabba, mkFighter "f1" "Ardboy" "Ironjawz" ""]
        exAbilities ≠ .ok ws) :=
  ⟨by decide, rfl, rfl, rfl, rfl,
    duplicate_fighter_rejected [exBrute, exStabba, mkFighter "f1" "Ardboy" "Ironjawz" ""]
      exAbilities 0 2 exBrute (mkFighter "f1" "Ardboy" "Ironjawz" "") (by decide) rfl rfl
      rfl rfl⟩

/-- C3 (battle trait separation): when `LoadWarbands F A` succeeds with `ws`,
every input ability of type `battle_trait` is in some output warband's
`BattleTraits` and in no output warband's `Abilities`; every other input
ability is in some output warband's `Abilities` and in no output warband's
`BattleTraits`; every element of a `BattleTraits` list has type
`battle_trait` and no element of an `Abilities` list has it. -/
theorem battle_trait_separation (F : Fighters) (A : Abilities) (ws : Warbands)
    (h : LoadWarbands F A = .ok ws) :
    (∀ a ∈ A, a.Type_ = "battle_trait" →
      (∃ w ∈ ws, a ∈ w.BattleTraits) ∧ ∀ w ∈ ws, a ∉ w.Abilities) ∧
    (∀ a ∈ A, a.Type_ ≠ "battle_trait" →
      (∃ w ∈ ws, a ∈ w.Abilities) ∧ ∀ w ∈ ws, a ∉ w.BattleTraits) ∧
    (∀ w ∈ ws, (∀ a ∈ w.BattleTraits, a.Type_ = "battle_trait") ∧
      ∀ a ∈ w.Abilities, a.Type_ ≠ "battle_trait") := by
  obtain ⟨hws, _, _⟩ := LoadWarbands_ok F A ws h
  subst hws
  have hmem : ∀ a ∈ A, assembled F A (targetFaction (bladebornAfter F) a) ∈
      (seenNames F A).map (assembled F A) := fun a ha =>
    List.mem_map.mpr ⟨_, (mem_seenNames F A _).mpr (Or.inr ⟨a, ha, rfl⟩), rfl⟩
  refine ⟨?_, ?_, ?_⟩
  · intro a ha ht
    refine ⟨⟨_, hmem a ha, by simp [assembled, ha, ht]⟩, ?_⟩
    intro w hw
    obtain ⟨n, _, rfl⟩ := List.mem_map.mp hw
    simp [assembled, ht]
  · intro a ha ht
    refine ⟨⟨_, hmem a ha, by simp [assembled, ha, ht]⟩, ?_⟩
    intro w hw
    obtain ⟨n, _, rfl⟩ := List.mem_map.mp hw
    simp [assembled, ht]
  · intro w hw
    obtain ⟨n, _, rfl⟩ := List.mem_map.mp hw
    constructor
    · intro a ha
      simp only [assembled, List.mem_filter, decide_eq_true_eq] at ha
      exact ha.2.1
    · intro a ha
      simp only [assembled, List.mem_filter, decide_eq_true_eq] at ha
      exact ha.2.1

theorem battle_trait_separation_witness :
    LoadWarbands exFighters exAbilities = .ok exWarbands ∧
    ((∀ a ∈ exAbilities, a.Type_ = "battle_trait" →
      (∃ w ∈ exWarbands, a ∈ w.BattleTraits) ∧ ∀ w ∈ exWarbands, a ∉ w.Abilities) ∧
    (∀ a ∈ exAbilities, a.Type_ ≠ "battle_trait" →
      (∃ w ∈ exWarbands, a ∈ w.Abilities) ∧ ∀ w ∈ exWarbands, a ∉ w.BattleTraits) ∧
    (∀ w ∈ exWarbands, (∀ a ∈ w.BattleTraits, a.Type_ = "battle_trait") ∧
      ∀ a ∈ w.Abilities, a.Type_ ≠ "battle_trait")) :=
  ⟨rfl, battle_trait_separation exFighters exAbilities exWarbands rfl⟩

/-- C4, as stated, fails when the parent faction-runemark is empty: the only
fighter declaring bladeborn-runemark `Krushas` has faction-runemark `""`, and
the ability with faction-runemark `Krushas` is filed under `Krushas`, not
under the warband named `""`. -/
theorem bladeborn_redirection_counterexample :
    LoadWarbands [exStray] [exKrush] =
      .ok [⟨"", [exStray], [], []⟩, ⟨"Krushas", [], [exKrush], []⟩] ∧
    "Krushas" ≠ "" ∧
    (∃ f ∈ [exStray], f.FactionRunemark = "" ∧ f.BladebornRunemark = "Krushas") ∧
    (∀ f ∈ [exStray], f.BladebornRunemark = "Krushas" → f.FactionRunemark = "") ∧
    exKrush ∈ [exKrush] ∧ exKrush.FactionRunemark = "Krushas" ∧
    ¬ exKrush.PlacedIn [⟨"", [exStray], [], []⟩, ⟨"Krushas", [], [exKrush], []⟩] "" := by
  refine ⟨rfl, by decide, ⟨exStray, by simp, rfl, rfl⟩, ?_, by simp, rfl, ?_⟩
  · intro f hf _
    simp only [List.mem_singleton] at hf
    subst hf
    rfl
  · rintro ⟨w, hw, hn, hp⟩
    simp only [List.mem_cons, List.mem_singleton, List.not_mem_nil, or_false] at hw
    rcases hw with rfl | rfl
    · simp at hp
    · exact absurd hn (by decide)

/-- C4 (bladeborn redirection, amended): when `LoadWarbands F A` succeeds with
`ws`, `X` and `Y` are non-empty, some fighter has faction-runemark `X` and
bladeborn-runemark `Y`, and every fighter declaring bladeborn-runemark `Y` has
faction-runemark `X`, then every input ability with faction-runemark `Y` is
placed in the output warband named `X` and in no warband of another name; and
an input ability whose faction-runemark no fighter declares as a non-empty
bladeborn-runemark is placed in the warband named after its own
faction-runemark and in no other. -/
theorem bladeborn_redirection (F : Fighters) (A : Abilities) (ws : Warbands)
    (h : LoadWarbands F A = .ok ws) :
    (∀ X Y : String, X ≠ "" → Y ≠ "" →
      (∃ f ∈ F, f.FactionRunemark = X ∧ f.BladebornRunemark = Y) →
      (∀ f ∈ F, f.BladebornRunemark = Y → f.FactionRunemark = X) →
      ∀ a ∈ A, a.FactionRunemark = Y → ∀ n, a.PlacedIn ws n ↔ n = X) ∧
    (∀ a ∈ A,
      (∀ f ∈ F, f.BladebornRunemark ≠ "" → f.BladebornRunemark ≠ a.FactionRunemark) →
      ∀ n, a.PlacedIn ws n ↔ n = a.FactionRunemark) := by
  constructor
  · intro X Y hX hY hex hall a ha haY n
    rw [ability_placedIn_iff F A ws h a ha n]
    have hbb : bladebornAfter F Y = X := by
      apply bladebornAfter_of_agree F Y X
      · intro f hf _ hfy
        exact hall f hf hfy
      · obtain ⟨f, hf, _, hf2⟩ := hex
        exact ⟨f, hf, by rw [hf2]; exact hY, hf2⟩
    simp [targetFaction, haY, hbb, hX]
  · intro a ha hnone n
    rw [ability_placedIn_iff F A ws h a ha n]
    have hbb : bladebornAfter F a.FactionRunemark = "" :=
      bladebornAfter_of_none F _ hnone
    simp [targetFaction, hbb]

theorem bladeborn_redirection_witness :
    LoadWarbands exFighters exAbilities = .ok exWarbands ∧
    (∀ n, exKrush.PlacedIn exWarbands n ↔ n = "Ironjawz") ∧
    (∀ n, exRush.PlacedIn exWarbands n ↔ n = "universal") :=
  ⟨rfl,
    (bladeborn_redirection exFighters exAbilities exWarbands rfl).1 "Ironjawz" "Krushas"
      (by decide) (by decide) ⟨exKrusha, by simp [exFighters], rfl, rfl⟩ (by decide)
      exKrush (by simp [exAbilities]) rfl,
    (bladeborn_redirection exFighters exAbilities exWarbands rfl).2 exRush
      (by simp [exAbilities]) (by decide)⟩

/-- C5 (output order): when `LoadWarbands F A` succeeds with `ws`, the names of
the output warbands are the faction-runemarks of the fighters in input order
followed by the target factions of the abilities in input order, with every
repeated name removed except its first occurrence; the names are pairwise
distinct and each name of that sequence names exactly one output warband. -/
theorem output_order (F : Fighters) (A : Abilities) (ws : Warbands)
    (h : LoadWarbands F A = .ok ws) :
    ws.map (fun w => w.Name) =
      keepFirst (F.map (fun f => f.FactionRunemark) ++
        A.map (targetFaction (bladebornAfter F))) ∧
    (ws.map (fun w => w.Name)).Nodup ∧
    ∀ n ∈ F.map (fun f => f.FactionRunemark) ++ A.map (targetFaction (bladebornAfter F)),
      ws.countP (fun w => decide (w.Name = n)) = 1 := by
  obtain ⟨hws, _, _⟩ := LoadWarbands_ok F A ws h
  have hnames : ws.map (fun w => w.Name) = seenNames F A := by
    rw [hws, List.map_map]
    conv_rhs => rw [← List.map_id (seenNames F A)]
    apply List.map_congr_left
    intro n _
    rfl
  refine ⟨by rw [hnames, seenNames_eq], by rw [hnames]; exact nodup_seenNames F A, ?_⟩
  intro n hn
  have hc : ws.countP (fun w => decide (w.Name = n)) =
      List.count n (ws.map (fun w => w.Name)) := by
    rw [List.count, List.countP_map]
    apply List.countP_congr
    intro w _
    simp
  rw [hc, hnames]
  apply List.count_eq_one_of_mem (nodup_seenNames F A)
  rw [seenNames_eq, mem_keepFirst]
  exact hn

theorem output_order_witness :
    LoadWarbands exFighters exAbilities = .ok exWarbands ∧
    (exWarbands.map (fun w => w.Name) =
      keepFirst (exFighters.map (fun f => f.FactionRunemark) ++
        exAbilities.map (targetFaction (bladebornAfter exFighters))) ∧
    (exWarbands.map (fun w => w.Name)).Nodup ∧
    ∀ n ∈ exFighters.map (fun f => f.FactionRunemark) ++
        exAbilities.map (targetFaction (bladebornAfter exFighters)),
      exWarbands.countP (fun w => decide (w.Name = n)) = 1) :=
  ⟨rfl, output_order exFighters exAbilities exWarbands rfl⟩

/-- C6, as stated, fails for abilities: two fighters of different factions
declare the bladeborn-runemark `Krushas`, the last registration wins, and
swapping the two fighters moves the ability with faction-runemark `Krushas`
from the warband `Nighthaunt` to the warband `Ironjawz`. -/
theorem reordering_counterexample :
    List.Perm [exKrusha, exThorn] [exThorn, exKrusha] ∧
    List.Perm [exKrush] [exKrush] ∧
    LoadWarbands [exKrusha, exThorn] [exKrush] =
      .ok [⟨"Ironjawz", [exKrusha], [], []⟩, ⟨"Nighthaunt", [exThorn], [exKrush], []⟩] ∧
    LoadWarbands [exThorn, exKrusha] [exKrush] =
      .ok [⟨"Nighthaunt", [exThorn], [], []⟩, ⟨"Ironjawz", [exKrusha], [exKrush], []⟩] ∧
    exKrush ∈ [exKrush] ∧
    exKrush.PlacedIn
      [⟨"Ironjawz", [exKrusha], [], []⟩, ⟨"Nighthaunt", [exThorn], [exKrush], []⟩]
      "Nighthaunt" ∧
    ¬ exKrush.PlacedIn
      [⟨"Nighthaunt", [exThorn], [], []⟩, ⟨"Ironjawz", [exKrusha], [exKrush], []⟩]
      "Nighthaunt" := by
  refine ⟨List.Perm.swap _ _ _, List.Perm.refl _, rfl, rfl, by simp, ?_, ?_⟩
  · exact ⟨⟨"Nighthaunt", [exThorn], [exKrush], []⟩, by simp, rfl, Or.inl (by simp)⟩
  · rintro ⟨w, hw, hn, hp⟩
    simp only [List.mem_cons, List.mem_singleton, List.not_mem_nil, or_false] at hw
    rcases hw with rfl | rfl
    · simp at hp
    · exact absurd hn (by decide)

/-- C6 (re-ordering independence, amended): when `LoadWarbands` succeeds on
`(F, A)` and on permutations `(F', A')`, every fighter lands in a warband of
the same name in both outputs, and so does every ability whose
faction-runemark is not declared as a non-empty bladeborn-runemark by two
fighters with different faction-runemarks. -/
theorem reordering_independence (F F' : Fighters) (A A' : Abilities) (ws ws' : Warbands)
    (hF : F.Perm F') (hA : A.Perm A')
    (h : LoadWarbands F A = .ok ws) (h' : LoadWarbands F' A' = .ok ws') :
    (∀ f ∈ F, ∀ n, f.PlacedIn ws n ↔ f.PlacedIn ws' n) ∧
    (∀ a ∈ A,
      (∀ f ∈ F, ∀ g ∈ F, f.BladebornRunemark ≠ "" →
        f.BladebornRunemark = a.FactionRunemark → g.BladebornRunemark = a.FactionRunemark →
        f.FactionRunemark = g.FactionRunemark) →
      ∀ n, a.PlacedIn ws n ↔ a.PlacedIn ws' n) := by
  constructor
  · intro f hf n
    rw [fighter_placedIn_iff F A ws h f hf n,
      fighter_placedIn_iff F' A' ws' h' f (hF.mem_iff.mp hf) n]
  · intro a ha hagree n
    rw [ability_placedIn_iff F A ws h a ha n,
      ability_placedIn_iff F' A' ws' h' a (hA.mem_iff.mp ha) n]
    have hbb : bladebornAfter F a.FactionRunemark = bladebornAfter F' a.FactionRunemark := by
      by_cases hex : ∃ f ∈ F, f.BladebornRunemark ≠ "" ∧
          f.BladebornRunemark = a.FactionRunemark
      · obtain ⟨f0, hf0, hf1, hf2⟩ := hex
        have hall : ∀ f ∈ F, f.BladebornRunemark ≠ "" →
            f.BladebornRunemark = a.FactionRunemark →
            f.FactionRunemark = f0.FactionRunemark :=
          fun f hf h1 h2 => hagree f hf f0 hf0 h1 h2 hf2
        rw [bladebornAfter_of_agree F _ _ hall ⟨f0, hf0, hf1, hf2⟩,
          bladebornAfter_of_agree F' _ _
            (fun f hf => hall f (hF.mem_iff.mpr hf))
            ⟨f0, hF.mem_iff.mp hf0, hf1, hf2⟩]
      · have hnone : ∀ f ∈ F, f.BladebornRunemark ≠ "" →
            f.BladebornRunemark ≠ a.FactionRunemark :=
          fun f hf h1 h2 => hex ⟨f, hf, h1, h2⟩
        rw [bladebornAfter_of_none F _ hnone,
          bladebornAfter_of_none F' _ (fun f hf => hnone f (hF.mem_iff.mpr hf))]
    simp only [targetFaction, hbb]

theorem reordering_independence_witness :
    List.Perm exFighters [exStabba, exKrusha, exBrute] ∧
    List.Perm exAbilities [exRush, exKrush, exStomp, exSmash] ∧
    LoadWarbands exFighters exAbilities = .ok exWarbands ∧
    LoadWarbands [exStabba, exKrusha, exBrute] [exRush, exKrush, exStomp, exSmash] =
      .ok [⟨"Gloomspite", [exStabba], [], []⟩,
           ⟨"Ironjawz", [exKrusha, exBrute], [exKrush, exStomp], [exSmash]⟩,
           ⟨"universal", [], [], [exRush]⟩] ∧
    ((∀ f ∈ exFighters, ∀ n, f.PlacedIn exWarbands n ↔
        f.PlacedIn [⟨"Gloomspite", [exStabba], [], []⟩,
           ⟨"Ironjawz", [exKrusha, exBrute], [exKrush, exStomp], [exSmash]⟩,
           ⟨"universal", [], [], [exRush]⟩] n) ∧
    (∀ a ∈ exAbilities,
      (∀ f ∈ exFighters, ∀ g ∈ exFighters, f.BladebornRunemark ≠ "" →
        f.BladebornRunemark = a.FactionRunemark → g.BladebornRunemark = a.FactionRunemark →
        f.FactionRunemark = g.FactionRunemark) →
      ∀ n, a.PlacedIn exWarbands n ↔
        a.PlacedIn [⟨"Gloomspite", [exStabba], [], []⟩,
           ⟨"Ironjawz", [exKrusha, exBrute], [exKrush, exStomp], [exSmash]⟩,
           ⟨"universal", [], [], [exRush]⟩] n)) :=
  have hF : List.Perm exFighters [exStabba, exKrusha, exBrute] :=
    (List.Perm.swap _ _ _).trans (((List.Perm.swap _ _ _).cons _).trans
      (List.Perm.swap _ _ _))
  have hA : List.Perm exAbilities [exRush, exKrush, exStomp, exSmash] :=
    List.reverse_perm [exRush, exKrush, exStomp, exSmash]
  ⟨hF, hA, rfl, rfl, reordering_independence _ _ _ _ _ _ hF hA rfl rfl⟩

/-- C7 (end-to-end example): on the fighter `f1` (Brute, Ironjawz) and the
abilities `a1` (Smash, battle_trait, Ironjawz) and `a2` (Stomp, action,
Ironjawz), `LoadWarbands` succeeds and returns exactly one warband, named
`Ironjawz`, with fighters `[f1]`, abilities `[a2]` and battle traits `[a1]`. -/
theorem end_to_end_example :
    LoadWarbands
      [{ Id := "f1", Name := "Brute", FactionRunemark := "Ironjawz", Runemarks := [],
         BladebornRunemark := "", GrandAlliance := "", Movement := 0, Toughness := 0,
         Wounds := 0, Points := 0, Weapons := [] }]
      [{ Id := "a1", Name := "Smash", Type_ := "battle_trait",
         FactionRunemark := "Ironjawz", Runemarks := [], Description := "" },
       { Id := "a2", Name := "Stomp", Type_ := "action",
         FactionRunemark := "Ironjawz", Runemarks := [], Description := "" }] =
    .ok [{ Name := "Ironjawz",
           Fighters := [
             { Id := "f1", Name := "Brute", FactionRunemark := "Ironjawz", Runemarks := [],
               BladebornRunemark := "", GrandAlliance := "", Movement := 0, Toughness := 0,
               Wounds := 0, Points := 0, Weapons := [] }],
           Abilities := [
             { Id := "a2", Name := "Stomp", Type_ := "action",
               FactionRunemark := "Ironjawz", Runemarks := [], Description := "" }],
           BattleTraits := [
             { Id := "a1", Name := "Smash", Type_ := "battle_trait",
               FactionRunemark := "Ironjawz", Runemarks := [], Description := "" }] }] :=
  rfl

/-- C8 (duplicate ability rejection): when the fighter loop succeeds and two
abilities at different positions both have a type tag other than
`battle_trait`, the same identifier and the same target faction,
`LoadWarbands` stops with the duplicate-ability message and so returns no
warband list. -/
theorem duplicate_ability_rejected (F : Fighters) (A : Abilities) (i j : Nat)
    (a b : Ability) (hF : ∃ st, fighterLoop LoadState.init F = .ok st) (hij : i ≠ j)
    (hi : A[i]? = some a) (hj : A[j]? = some b)
    (hta : a.Type_ ≠ "battle_trait") (htb : b.Type_ ≠ "battle_trait") (hid : a.Id = b.Id)
    (hfac : targetFaction (bladebornAfter F) a = targetFaction (bladebornAfter F) b) :
    LoadWarbands F A =
      .error ("error while adding ability -- " ++ "an Ability with this Id already exists") ∧
    ∀ ws, LoadWarbands F A ≠ .ok ws := by
  have hnp := not_pairwise_of_positions (Ability.Clash (bladebornAfter F))
    (fun _ _ hc => abilityClash_symm hc) A i j a b hij hi hj ⟨hta, htb, hfac, hid⟩
  have hno : ∀ ws, LoadWarbands F A ≠ .ok ws := by
    intro ws hok
    exact hnp (LoadWarbands_ok F A ws hok).2.2
  refine ⟨?_, hno⟩
  obtain ⟨st, hst⟩ := hF
  cases hL : LoadWarbands F A with
  | ok ws => exact absurd hL (hno ws)
  | error e =>
    rcases LoadWarbands_error F A e hL with ⟨_, hp⟩ | ⟨he, _, _⟩
    · exact absurd (fighterLoop_ok F _ _ hst).2.2.2.2 hp
    · rw [he]; rfl

theorem duplicate_ability_rejected_witness :
    (∃ st, fighterLoop LoadState.init exFighters = .ok st) ∧ (0 : Nat) ≠ 2 ∧
    [exStomp, exSmash, exBash][0]? = some exStomp ∧
    [exStomp, exSmash, exBash][2]? = some exBash ∧
    exStomp.Type_ ≠ "battle_trait" ∧ exBash.Type_ ≠ "battle_trait" ∧
    exStomp.Id = exBash.Id ∧
    targetFaction (bladebornAfter exFighters) exStomp =
      targetFaction (bladebornAfter exFighters) exBash ∧
    (LoadWarbands exFighters [exStomp, exSmash, exBash] =
        .error ("error while adding ability -- " ++ "an Ability with this Id already exists") ∧
      ∀ ws, LoadWarbands exFighters [exStomp, exSmash, exBash] ≠ .ok ws) :=
  ⟨⟨_, rfl⟩, by decide, rfl, rfl, by decide, by decide, rfl, rfl,
    duplicate_ability_rejected exFighters [exStomp, exSmash, exBash] 0 2 exStomp exBash
      ⟨_, rfl⟩ (by decide) rfl rfl (by decide) (by decide) rfl rfl⟩

/-- C9 (insertion contract): `AddFighter` returns an error exactly when the
warband already holds a fighter with the identifier of `f`; on an error the
warband is unchanged; on success `f` is appended at the end of `Fighters` and
`Name`, `Abilities` and `BattleTraits` are unchanged.  Symmetrically for
`AddAbility` and the `Abilities` list. -/
theorem insertion_contract (W : Warband) (f : Fighter) (a : Ability) :
    (((W.AddFighter f).2 ≠ none ↔ ∃ g ∈ W.Fighters, g.Id = f.Id) ∧
      ((W.AddFighter f).2 ≠ none →
        (W.AddFighter f).2 = some "a Fighter with this Id already exists" ∧
        (W.AddFighter f).1 = W) ∧
      ((W.AddFighter f).2 = none →
        (W.AddFighter f).1.Fighters = W.Fighters ++ [f] ∧
        (W.AddFighter f).1.Name = W.Name ∧
        (W.AddFighter f).1.Abilities = W.Abilities ∧
        (W.AddFighter f).1.BattleTraits = W.BattleTraits)) ∧
    (((W.AddAbility a).2 ≠ none ↔ ∃ b ∈ W.Abilities, b.Id = a.Id) ∧
      ((W.AddAbility a).2 ≠ none →
        (W.AddAbility a).2 = some "an Ability with this Id already exists" ∧
        (W.AddAbility a).1 = W) ∧
      ((W.AddAbility a).2 = none →
        (W.AddAbility a).1.Abilities = W.Abilities ++ [a] ∧
        (W.AddAbility a).1.Name = W.Name ∧
        (W.AddAbility a).1.Fighters = W.Fighters ∧
        (W.AddAbility a).1.BattleTraits = W.BattleTraits)) := by
  constructor
  · by_cases hm : f.Id ∈ W.Fighters.map (fun g => g.Id)
    · have hex : ∃ g ∈ W.Fighters, g.Id = f.Id := by simpa using hm
      rw [AddFighter_of_mem W f hm]
      simp [hex, errDuplicateFighter]
    · have hex : ¬ ∃ g ∈ W.Fighters, g.Id = f.Id := by simpa using hm
      rw [AddFighter_of_not_mem W f hm]
      simp [hex]
  · by_cases hm : a.Id ∈ W.Abilities.map (fun b => b.Id)
    · have hex : ∃ b ∈ W.Abilities, b.Id = a.Id := by simpa using hm
      rw [AddAbility_of_mem W a hm]
      simp [hex, errDuplicateAbility]
    · have hex : ¬ ∃ b ∈ W.Abilities, b.Id = a.Id := by simpa using hm
      rw [AddAbility_of_not_mem W a hm]
      simp [hex]

/-- C10 (uniqueness inside a warband): when `LoadWarbands F A` succeeds with
`ws`, in every output warband the identifiers of the fighters are pairwise
distinct and the identifiers of the abilities are pairwise distinct; and
`AddFighter` and `AddAbility` keep the identifiers of a warband pairwise
distinct, as they are in the empty warband. -/
theorem unique_ids_in_warband (F : Fighters) (A : Abilities) (ws : Warbands)
    (h : LoadWarbands F A = .ok ws) :
    (∀ w ∈ ws, (w.Fighters.map (fun f => f.Id)).Nodup ∧
      (w.Abilities.map (fun a => a.Id)).Nodup) ∧
    ((Warband.zero.Fighters.map (fun f => f.Id)).Nodup ∧
      (Warband.zero.Abilities.map (fun a => a.Id)).Nodup) ∧
    (∀ (W : Warband) (f : Fighter), (W.Fighters.map (fun g => g.Id)).Nodup →
      ((W.AddFighter f).1.Fighters.map (fun g => g.Id)).Nodup ∧
      (W.AddFighter f).1.Abilities = W.Abilities) ∧
    (∀ (W : Warband) (a : Ability), (W.Abilities.map (fun b => b.Id)).Nodup →
      ((W.AddAbility a).1.Abilities.map (fun b => b.Id)).Nodup ∧
      (W.AddAbility a).1.Fighters = W.Fighters) := by
  obtain ⟨hws, hpf, hpa⟩ := LoadWarbands_ok F A ws h
  subst hws
  refine ⟨?_, by simp [Warband.zero], ?_, ?_⟩
  · intro w hw
    obtain ⟨n, _, rfl⟩ := List.mem_map.mp hw
    constructor
    · exact nodup_ids_of_pairwise (fun f : Fighter => f.FactionRunemark)
        (fun f => f.Id) F hpf n
    · have hpa2 : (A.filter (fun a => a.Type_ ≠ "battle_trait")).Pairwise
          (fun a b => ¬ (targetFaction (bladebornAfter F) a =
            targetFaction (bladebornAfter F) b ∧ a.Id = b.Id)) := by
        refine (hpa.filter _).imp_of_mem ?_
        intro x y hx hy hxy hc
        simp only [List.mem_filter, decide_eq_true_eq] at hx hy
        exact hxy ⟨by simpa using hx.2, by simpa using hy.2, hc.1, hc.2⟩
      have := nodup_ids_of_pairwise (targetFaction (bladebornAfter F)) (fun a => a.Id)
        _ hpa2 n
      rw [List.filter_filter] at this
      have he : (assembled F A n).Abilities = A.filter (fun a =>
          decide (targetFaction (bladebornAfter F) a = n) &&
            decide (a.Type_ ≠ "battle_trait")) := by
        simp only [assembled]
        apply List.filter_congr
        intro x _
        simp [Bool.and_comm]
      rw [he]
      exact this
  · intro W f hnd
    by_cases hm : f.Id ∈ W.Fighters.map (fun g => g.Id)
    · rw [AddFighter_of_mem W f hm]
      exact ⟨hnd, rfl⟩
    · rw [AddFighter_of_not_mem W f hm]
      refine ⟨?_, rfl⟩
      simp only [List.map_append, List.map_cons, List.map_nil]
      exact List.Nodup.append hnd (List.nodup_singleton _)
        (by simpa [List.Disjoint] using hm)
  · intro W a hnd
    by_cases hm : a.Id ∈ W.Abilities.map (fun b => b.Id)
    · rw [AddAbility_of_mem W a hm]
      exact ⟨hnd, rfl⟩
    · rw [AddAbility_of_not_mem W a hm]
      refine ⟨?_, rfl⟩
      simp only [List.map_append, List.map_cons, List.map_nil]
      exact List.Nodup.append hnd (List.nodup_singleton _)
        (by simpa [List.Disjoint] using hm)

theorem unique_ids_in_warband_witness :
    LoadWarbands exFighters exAbilities = .ok exWarbands ∧
    (∀ w ∈ exWarbands, (w.Fighters.map (fun f => f.Id)).Nodup ∧
      (w.Abilities.map (fun a => a.Id)).Nodup) :=
  ⟨rfl, (unique_ids_in_warband exFighters exAbilities exWarbands rfl).1⟩

/-! ## Helper lemmas: filtering by faction -/

theorem fighters_GetWarband_eq_filter (F : Fighters) (r : String) :
    Fighters.GetWarband F r = F.filter (fun f => f.FactionRunemark = r) := by
  simp [Fighters.GetWarband, foldl_snoc_if_eq_filter]

theorem abilities_GetWarband_eq_filter (A : Abilities) (r : String) :
    Abilities.GetWarband A r = A.filter (fun a => a.FactionRunemark = r) := by
  simp [Abilities.GetWarband, foldl_snoc_if_eq_filter]

/-! ## Helper lemmas: the last registration wins -/

theorem foldl_registerBladeborn_last (y : String) (m : String → String) (F : List Fighter) :
    F.foldl registerBladeborn m y =
      match lastDeclaring y F with
      | some g => g.FactionRunemark
      | none => m y := by
  induction F using List.reverseRecOn with
  | nil => simp [lastDeclaring]
  | append_singleton fs f ih =>
    rw [List.foldl_append, List.foldl_cons, List.foldl_nil]
    by_cases hb : f.BladebornRunemark ≠ "" ∧ f.BladebornRunemark = y
    · have hy : ¬ y = "" := hb.2 ▸ hb.1
      have hl : lastDeclaring y (fs ++ [f]) = some f := by
        have hd : decide (f.BladebornRunemark ≠ "" ∧ f.BladebornRunemark = y) = true := by
          simpa using hb
        simp only [lastDeclaring, List.filter_append]
        rw [List.filter_cons_of_pos (by simp [hd]), List.filter_nil, List.getLast?_concat]
      rw [hl]
      simp [registerBladeborn, hb.2, hy, mapSet]
    · have hl : lastDeclaring y (fs ++ [f]) = lastDeclaring y fs := by
        have hd : decide (f.BladebornRunemark ≠ "" ∧ f.BladebornRunemark = y) = false := by
          simpa using hb
        simp only [lastDeclaring, List.filter_append]
        rw [List.filter_cons_of_neg (by simp [hd])]
        simp
      rw [hl, ← ih]
      by_cases he : f.BladebornRunemark = ""
      · simp [registerBladeborn, he]
      · have hne : ¬ y = f.BladebornRunemark := fun e => hb ⟨he, e.symm⟩
        simp [registerBladeborn, he, mapSet, hne]

theorem targetFaction_eq_filedUnder (F : Fighters) (a : Ability) :
    targetFaction (bladebornAfter F) a = filedUnder F a := by
  unfold targetFaction filedUnder bladebornAfter
  rw [foldl_registerBladeborn_last]
  cases lastDeclaring a.FactionRunemark F with
  | none => simp
  | some g => simp

theorem fighterLoop_bladeborn (F : Fighters) (st : LoadState)
    (h : fighterLoop LoadState.init F = .ok st) : st.bladeborn = bladebornAfter F := by
  rw [(fighterLoop_ok F _ _ h).2.1]
  rfl

/-- A non-empty entry of the bladeborn map is the faction-runemark of a fighter. -/
theorem bladebornAfter_mem (F : Fighters) (y : String) (h : bladebornAfter F y ≠ "") :
    ∃ f ∈ F, f.FactionRunemark = bladebornAfter F y := by
  unfold bladebornAfter at h ⊢
  rw [foldl_registerBladeborn_last] at h ⊢
  cases hl : lastDeclaring y F with
  | none => simp [hl] at h
  | some g =>
    refine ⟨g, ?_, rfl⟩
    have hg : g ∈ F.filter (fun f => f.BladebornRunemark ≠ "" ∧ f.BladebornRunemark = y) :=
      List.mem_of_getLast?_eq_some hl
    exact (List.mem_filter.mp hg).1

/-! ## Helper lemmas: success from the absence of clashes -/

theorem pairwise_of_positions {α : Type} (R : α → α → Prop) (l : List α)
    (h : ∀ (i j : Nat) (a b : α), i ≠ j → l[i]? = some a → l[j]? = some b → ¬ R a b) :
    l.Pairwise (fun x y => ¬ R x y) := by
  rw [List.pairwise_iff_getElem]
  intro i j hi hj hij
  exact h i j _ _ (Nat.ne_of_lt hij) (List.getElem?_eq_getElem hi)
    (List.getElem?_eq_getElem hj)

theorem LoadWarbands_succeeds (F : Fighters) (A : Abilities)
    (hF : F.Pairwise (fun f g => ¬ Fighter.Clash f g))
    (hA : A.Pairwise (fun a b => ¬ Ability.Clash (bladebornAfter F) a b)) :
    ∃ ws, LoadWarbands F A = .ok ws := by
  obtain ⟨st, hst⟩ := fighterLoop_succeeds F LoadState.init
    (by intro g _; simp [LoadState.init, Warband.zero]) hF
  have hbb := fighterLoop_bladeborn F st hst
  obtain ⟨st', hst'⟩ := abilityLoop_succeeds A st
    (by
      intro b _ _
      rw [(fighterLoop_ok F _ _ hst).2.2.1]
      simp [LoadState.init, Warband.zero])
    (by rw [hbb]; exact hA)
  exact ⟨collectWarbands st', by simp [LoadWarbands, hst, hst']⟩

theorem flatten_map_perm_congr {α : Type} (g h : String → List α)
    (hgh : ∀ k, (g k).Perm (h k)) (ks : List String) :
    (ks.map g).flatten.Perm (ks.map h).flatten := by
  induction ks with
  | nil => simp
  | cons k ks ih =>
    simp only [List.map_cons, List.flatten_cons]
    exact (hgh k).append ih

/-! ## Further properties of `LoadWarbands` and of the collection helpers -/

/-- C11 (warband members share the warband's name): when `LoadWarbands F A`
succeeds with `ws`, the fighters of every output warband `w` are exactly
`F.GetWarband(w.Name)`, so each of them has faction-runemark `w.Name`; and an
input fighter lands in the warband named after its own faction-runemark and
in no other (no redirection through the bladeborn map). -/
theorem members_share_name (F : Fighters) (A : Abilities) (ws : Warbands)
    (h : LoadWarbands F A = .ok ws) :
    (∀ w ∈ ws, w.Fighters = Fighters.GetWarband F w.Name ∧
      ∀ f ∈ w.Fighters, f.FactionRunemark = w.Name) ∧
    (∀ f ∈ F, ∀ n, f.PlacedIn ws n ↔ n = f.FactionRunemark) := by
  refine ⟨?_, fun f hf n => fighter_placedIn_iff F A ws h f hf n⟩
  obtain ⟨hws, _, _⟩ := LoadWarbands_ok F A ws h
  subst hws
  intro w hw
  obtain ⟨n, _, rfl⟩ := List.mem_map.mp hw
  refine ⟨by rw [fighters_GetWarband_eq_filter]; rfl, ?_⟩
  intro f hf
  simp only [assembled, List.mem_filter, decide_eq_true_eq] at hf
  exact hf.2

theorem members_share_name_witness :
    LoadWarbands exFighters exAbilities = .ok exWarbands ∧
    ((∀ w ∈ exWarbands, w.Fighters = Fighters.GetWarband exFighters w.Name ∧
      ∀ f ∈ w.Fighters, f.FactionRunemark = w.Name) ∧
    (∀ f ∈ exFighters, ∀ n, f.PlacedIn exWarbands n ↔ n = f.FactionRunemark)) :=
  ⟨rfl, members_share_name exFighters exAbilities exWarbands rfl⟩

/-- C12 (derived warband identity): when `LoadWarbands F A` succeeds with
`ws`, the name of every output warband is the faction-runemark of some input
fighter or of some input ability. -/
theorem derived_warband_identity (F : Fighters) (A : Abilities) (ws : Warbands)
    (h : LoadWarbands F A = .ok ws) :
    ∀ w ∈ ws, (∃ f ∈ F, f.FactionRunemark = w.Name) ∨
      (∃ a ∈ A, a.FactionRunemark = w.Name) := by
  obtain ⟨hws, _, _⟩ := LoadWarbands_ok F A ws h
  subst hws
  intro w hw
  obtain ⟨n, hn, rfl⟩ := List.mem_map.mp hw
  rcases (mem_seenNames F A n).mp hn with hf | ⟨a, ha, hat⟩
  · exact Or.inl hf
  · by_cases hb : bladebornAfter F a.FactionRunemark ≠ ""
    · left
      obtain ⟨f, hf, hfe⟩ := bladebornAfter_mem F _ hb
      refine ⟨f, hf, ?_⟩
      rw [hfe, ← hat]
      simp [targetFaction, assembled, hb]
    · right
      refine ⟨a, ha, ?_⟩
      rw [← hat]
      simp [targetFaction, assembled, hb]

theorem derived_warband_identity_witness :
    LoadWarbands exFighters exAbilities = .ok exWarbands ∧
    (∀ w ∈ exWarbands, (∃ f ∈ exFighters, f.FactionRunemark = w.Name) ∨
      (∃ a ∈ exAbilities, a.FactionRunemark = w.Name)) :=
  ⟨rfl, derived_warband_identity exFighters exAbilities exWarbands rfl⟩

/-- C13 (filter by faction): `F.GetWarband(r)` is the sublist of `F`, in the
original order, of the fighters whose faction-runemark is `r`: it is the
order-preserving filter, a sublist of `F`, every element of it has
faction-runemark `r`, and every fighter with faction-runemark `r` occurs in it
as often as in `F`.  The same holds for `Abilities.GetWarband`. -/
theorem getWarband_filters (F : Fighters) (A : Abilities) (r : String) :
    (Fighters.GetWarband F r = F.filter (fun f => f.FactionRunemark = r) ∧
      (Fighters.GetWarband F r).Sublist F ∧
      (∀ f ∈ Fighters.GetWarband F r, f.FactionRunemark = r) ∧
      (∀ f : Fighter, f.FactionRunemark = r →
        (Fighters.GetWarband F r).count f = F.count f)) ∧
    (Abilities.GetWarband A r = A.filter (fun a => a.FactionRunemark = r) ∧
      (Abilities.GetWarband A r).Sublist A ∧
      (∀ a ∈ Abilities.GetWarband A r, a.FactionRunemark = r) ∧
      (∀ a : Ability, a.FactionRunemark = r →
        (Abilities.GetWarband A r).count a = A.count a)) := by
  constructor
  · rw [fighters_GetWarband_eq_filter]
    refine ⟨rfl, List.filter_sublist _, ?_, ?_⟩
    · intro f hf
      simpa using (List.mem_filter.mp hf).2
    · intro f hf
      exact List.count_filter (by simpa using hf)
  · rw [abilities_GetWarband_eq_filter]
    refine ⟨rfl, List.filter_sublist _, ?_, ?_⟩
    · intro a ha
      simpa using (List.mem_filter.mp ha).2
    · intro a ha
      exact List.count_filter (by simpa using ha)

/-- C14 (identifiers): `F.GetIds()` has the length of `F` and its `i`-th entry
is the identifier of the `i`-th fighter of `F`; the same holds for
`Abilities.GetIds`. -/
theorem getIds_projects (F : Fighters) (A : Abilities) :
    ((Fighters.GetIds F).length = F.length ∧
      ∀ i : Nat, (Fighters.GetIds F)[i]? = (F[i]?).map (fun f => f.Id)) ∧
    ((Abilities.GetIds A).length = A.length ∧
      ∀ i : Nat, (Abilities.GetIds A)[i]? = (A[i]?).map (fun a => a.Id)) := by
  constructor
  · rw [fighters_GetIds_eq_map]
    exact ⟨List.length_map _ _, fun i => List.getElem?_map _ _ i⟩
  · rw [abilities_GetIds_eq_map]
    exact ⟨List.length_map _ _, fun i => List.getElem?_map _ _ i⟩

/-- C15 (success characterisation): `LoadWarbands` succeeds whenever no two
fighters at different positions share both faction-runemark and identifier
and no two abilities at different positions, neither of type `battle_trait`,
share both target faction and identifier.  Identifiers repeated across
factions and battle traits with repeated identifiers are not excluded by
these conditions. -/
theorem success_characterisation (F : Fighters) (A : Abilities)
    (hF : ∀ (i j : Nat) (f g : Fighter), i ≠ j → F[i]? = some f → F[j]? = some g →
      ¬ (f.FactionRunemark = g.FactionRunemark ∧ f.Id = g.Id))
    (hA : ∀ (i j : Nat) (a b : Ability), i ≠ j → A[i]? = some a → A[j]? = some b →
      a.Type_ ≠ "battle_trait" → b.Type_ ≠ "battle_trait" →
      ¬ (targetFaction (bladebornAfter F) a = targetFaction (bladebornAfter F) b ∧
        a.Id = b.Id)) :
    ∃ ws, LoadWarbands F A = .ok ws := by
  apply LoadWarbands_succeeds
  · exact pairwise_of_positions Fighter.Clash F hF
  · apply pairwise_of_positions (Ability.Clash (bladebornAfter F)) A
    intro i j a b hij hi hj hc
    exact hA i j a b hij hi hj hc.1 hc.2.1 hc.2.2

theorem success_characterisation_witness :
    (∀ (i j : Nat) (f g : Fighter), i ≠ j → exFighters[i]? = some f →
      exFighters[j]? = some g → ¬ (f.FactionRunemark = g.FactionRunemark ∧ f.Id = g.Id)) ∧
    (∀ (i j : Nat) (a b : Ability), i ≠ j → exTraits[i]? = some a → exTraits[j]? = some b →
      a.Type_ ≠ "battle_trait" → b.Type_ ≠ "battle_trait" →
      ¬ (targetFaction (bladebornAfter exFighters) a =
          targetFaction (bladebornAfter exFighters) b ∧ a.Id = b.Id)) ∧
    ∃ ws, LoadWarbands exFighters exTraits = .ok ws :=
  have hF : ∀ (i j : Nat) (f g : Fighter), i ≠ j → exFighters[i]? = some f →
      exFighters[j]? = some g → ¬ (f.FactionRunemark = g.FactionRunemark ∧ f.Id = g.Id) :=
    fun i j f g hij hi hj hc =>
      not_pairwise_of_positions Fighter.Clash (fun _ _ hs => fighterClash_symm hs)
        exFighters i j f g hij hi hj hc
        (show List.Pairwise (fun x y : Fighter =>
          ¬ (x.FactionRunemark = y.FactionRunemark ∧ x.Id = y.Id)) exFighters by decide)
  have hA : ∀ (i j : Nat) (a b : Ability), i ≠ j → exTraits[i]? = some a →
      exTraits[j]? = some b → a.Type_ ≠ "battle_trait" → b.Type_ ≠ "battle_trait" →
      ¬ (targetFaction (bladebornAfter exFighters) a =
          targetFaction (bladebornAfter exFighters) b ∧ a.Id = b.Id) :=
    fun i j a b hij hi hj hta htb hc =>
      not_pairwise_of_positions (Ability.Clash (bladebornAfter exFighters))
        (fun _ _ hs => abilityClash_symm hs) exTraits i j a b hij hi hj
        ⟨hta, htb, hc.1, hc.2⟩
        (show List.Pairwise (fun x y : Ability =>
          ¬ (x.Type_ ≠ "battle_trait" ∧ y.Type_ ≠ "battle_trait" ∧
            targetFaction (bladebornAfter exFighters) x =
              targetFaction (bladebornAfter exFighters) y ∧ x.Id = y.Id)) exTraits by decide)
  ⟨hF, hA, success_characterisation exFighters exTraits hF hA⟩

/-- C16 (target faction under conflicting or empty registrations): the
faction under which `LoadWarbands` files an ability `a` is the faction-runemark
of the last fighter of `F` whose non-empty bladeborn-runemark equals the
faction-runemark of `a`, when such a fighter exists and its faction-runemark
is non-empty, and the faction-runemark of `a` in every other case.  This is
the key computed in the second loop from the map the first loop leaves, and
the name of the one output warband that receives `a`. -/
theorem target_faction_last_registration (F : Fighters) (a : Ability) :
    targetFaction (bladebornAfter F) a = filedUnder F a ∧
    (∀ st, fighterLoop LoadState.init F = .ok st →
      targetFaction st.bladeborn a = filedUnder F a) ∧
    (∀ (A : Abilities) (ws : Warbands), LoadWarbands F A = .ok ws → a ∈ A →
      ∀ n, a.PlacedIn ws n ↔ n = filedUnder F a) := by
  refine ⟨targetFaction_eq_filedUnder F a, ?_, ?_⟩
  · intro st hst
    rw [fighterLoop_bladeborn F st hst]
    exact targetFaction_eq_filedUnder F a
  · intro A ws h ha n
    rw [ability_placedIn_iff F A ws h a ha n, targetFaction_eq_filedUnder]

/-- C17 (ability partition): when `LoadWarbands F A` succeeds with `ws`, the
battle traits of every output warband `w` are the abilities of `A`, in input
order, of type `battle_trait` with target faction `w.Name`, and its abilities
are those of any other type with target faction `w.Name`; every input ability
occurs in exactly one list of exactly one output warband, the lists together
are a permutation of `A`, and their lengths add up to the length of `A`. -/
theorem ability_partition (F : Fighters) (A : Abilities) (ws : Warbands)
    (h : LoadWarbands F A = .ok ws) :
    (∀ w ∈ ws,
      w.BattleTraits = A.filter (fun a =>
        a.Type_ = "battle_trait" ∧ targetFaction (bladebornAfter F) a = w.Name) ∧
      w.Abilities = A.filter (fun a =>
        a.Type_ ≠ "battle_trait" ∧ targetFaction (bladebornAfter F) a = w.Name)) ∧
    (∀ a ∈ A, ws.countP (fun w => decide (a ∈ w.Abilities)) +
      ws.countP (fun w => decide (a ∈ w.BattleTraits)) = 1) ∧
    (ws.map (fun w => w.Abilities ++ w.BattleTraits)).flatten.Perm A ∧
    (ws.map (fun w => w.Abilities.length + w.BattleTraits.length)).sum = A.length := by
  obtain ⟨hws, _, _⟩ := LoadWarbands_ok F A ws h
  subst hws
  have hnd := nodup_seenNames F A
  have hperm : (((seenNames F A).map (assembled F A)).map
      (fun w => w.Abilities ++ w.BattleTraits)).flatten.Perm A := by
    rw [List.map_map]
    have h1 := flatten_map_perm_congr
      ((fun w : Warband => w.Abilities ++ w.BattleTraits) ∘ assembled F A)
      (fun n => A.filter (fun a => targetFaction (bladebornAfter F) a = n))
      (by
        intro n
        have hp := List.filter_append_perm (fun a : Ability => decide (a.Type_ = "battle_trait"))
          (A.filter (fun a => targetFaction (bladebornAfter F) a = n))
        rw [List.filter_filter, List.filter_filter] at hp
        refine (List.perm_append_comm.trans ?_).trans hp
        simp only [Function.comp, assembled]
        refine List.Perm.append ?_ ?_
        · apply List.Perm.of_eq
          apply List.filter_congr
          intro x _
          simp
        · apply List.Perm.of_eq
          apply List.filter_congr
          intro x _
          simp)
      (seenNames F A)
    have h2 := flatten_filter_perm (targetFaction (bladebornAfter F)) A (seenNames F A) hnd
    have hall : A.filter (fun a => targetFaction (bladebornAfter F) a ∈ seenNames F A) = A := by
      apply List.filter_eq_self.mpr
      intro a ha
      simpa using (mem_seenNames F A _).mpr (Or.inr ⟨a, ha, rfl⟩)
    rw [hall] at h2
    exact h1.trans h2
  refine ⟨?_, ?_, hperm, ?_⟩
  · intro w hw
    obtain ⟨n, _, rfl⟩ := List.mem_map.mp hw
    exact ⟨rfl, rfl⟩
  · intro a ha
    have hone : List.count (targetFaction (bladebornAfter F) a) (seenNames F A) = 1 :=
      List.count_eq_one_of_mem hnd ((mem_seenNames F A _).mpr (Or.inr ⟨a, ha, rfl⟩))
    rw [List.countP_map, List.countP_map]
    by_cases ht : a.Type_ = "battle_trait"
    · have h1 : List.countP ((fun w => decide (a ∈ w.Abilities)) ∘ assembled F A)
          (seenNames F A) = 0 := by
        rw [List.countP_eq_zero]
        intro n _
        simp [assembled, ht]
      have h2 : List.countP ((fun w => decide (a ∈ w.BattleTraits)) ∘ assembled F A)
          (seenNames F A) = List.count (targetFaction (bladebornAfter F) a) (seenNames F A) := by
        rw [List.count]
        apply List.countP_congr
        intro n _
        simp only [Function.comp, assembled, List.mem_filter, ha, ht, true_and,
          decide_eq_true_eq, beq_iff_eq]
        exact ⟨fun e => e.symm, fun e => e.symm⟩
      rw [h1, h2, hone]
    · have h1 : List.countP ((fun w => decide (a ∈ w.BattleTraits)) ∘ assembled F A)
          (seenNames F A) = 0 := by
        rw [List.countP_eq_zero]
        intro n _
        simp [assembled, ht]
      have h2 : List.countP ((fun w => decide (a ∈ w.Abilities)) ∘ assembled F A)
          (seenNames F A) = List.count (targetFaction (bladebornAfter F) a) (seenNames F A) := by
        rw [List.count]
        apply List.countP_congr
        intro n _
        simp only [Function.comp, assembled, List.mem_filter, ha, ht, true_and,
          decide_eq_true_eq, beq_iff_eq, ne_eq, not_false_eq_true]
        exact ⟨fun e => e.symm, fun e => e.symm⟩
      rw [h1, h2, hone]
  · have hl := hperm.length_eq
    rw [List.length_flatten, List.map_map] at hl
    rw [← hl]
    congr 1
    apply List.map_congr_left
    intro w _
    simp

theorem ability_partition_witness :
    LoadWarbands exFighters exAbilities = .ok exWarbands ∧
    ((∀ w ∈ exWarbands,
      w.BattleTraits = exAbilities.filter (fun a =>
        a.Type_ = "battle_trait" ∧ targetFaction (bladebornAfter exFighters) a = w.Name) ∧
      w.Abilities = exAbilities.filter (fun a =>
        a.Type_ ≠ "battle_trait" ∧ targetFaction (bladebornAfter exFighters) a = w.Name)) ∧
    (∀ a ∈ exAbilities, exWarbands.countP (fun w => decide (a ∈ w.Abilities)) +
      exWarbands.countP (fun w => decide (a ∈ w.BattleTraits)) = 1) ∧
    (exWarbands.map (fun w => w.Abilities ++ w.BattleTraits)).flatten.Perm exAbilities ∧
    (exWarbands.map (fun w => w.Abilities.length + w.BattleTraits.length)).sum =
      exAbilities.length) :=
  ⟨rfl, ability_partition exFighters exAbilities exWarbands rfl⟩

end WarcryGo
